import Mathlib

/-!
Verification of the schema reference pruner in `linkml_scan.py`.

The script loads a JSON schema, builds forward edges from `$ref`
occurrences inside each `$defs` entry, computes the set of names
reachable from a chosen root by breadth-first search, restricts `$defs`
to the reachable names and rewrites any remaining reference whose target
is outside the reachable set to the sentinel
`"#/$defs/REMOVED_REFERENCE"`.

JSON values are embedded as a mutual inductive family (`Json`, `JList`
for arrays, `JObj` for objects as association lists), so that every
function of the script becomes a structurally recursive Lean function
that the kernel can evaluate on concrete documents.
-/

namespace LinkmlScan

mutual

inductive Json where
  | str (s : String)
  | num (n : Int)
  | bool (b : Bool)
  | null
  | arr (xs : JList)
  | obj (kvs : JObj)
deriving DecidableEq

inductive JList where
  | nil
  | cons (hd : Json) (tl : JList)
deriving DecidableEq

inductive JObj where
  | nil
  | cons (k : String) (v : Json) (tl : JObj)
deriving DecidableEq

end

/-- Lookup of a key in a JSON object, first occurrence wins
(Python dictionaries have unique keys, so this is the dictionary access
`schema_fragment[key]`). -/
def JObj.lookup : JObj → String → Option Json
  | .nil, _ => none
  | .cons k v rest, key => if k = key then some v else rest.lookup key

/-- The list of keys of a JSON object. -/
def JObj.keys : JObj → List String
  | .nil => []
  | .cons k _ rest => k :: rest.keys

/-- Number of entries of a JSON object (`len` of the Python dict). -/
def JObj.length : JObj → Nat
  | .nil => 0
  | .cons _ _ rest => rest.length + 1

/-- Membership of a key/value pair in a JSON object. -/
inductive JObj.Pair : String → Json → JObj → Prop where
  | head (k : String) (v : Json) (rest : JObj) : JObj.Pair k v (.cons k v rest)
  | tail (k : String) (v : Json) (k1 : String) (v1 : Json) (rest : JObj) :
      JObj.Pair k v rest → JObj.Pair k v (.cons k1 v1 rest)

/-- Membership of an element in a JSON array. -/
inductive JList.Elem : Json → JList → Prop where
  | head (x : Json) (rest : JList) : JList.Elem x (.cons x rest)
  | tail (x y : Json) (rest : JList) : JList.Elem x rest → JList.Elem x (.cons y rest)

/-- The characters of the local-pointer marker string `"#/$defs/"`. -/
def refMark : List Char := ['#', '/', '$', 'd', 'e', 'f', 's', '/']

/-- Character-level test that the second list begins with the first
(Python `str.startswith`). -/
def headMatches : List Char → List Char → Bool
  | [], _ => true
  | _ :: _, [] => false
  | c :: cs, d :: ds => c == d && headMatches cs ds

/-- `extract_def_name` from the source: if the value is the string
`"#/$defs/XYZ"` return `"XYZ"`, otherwise `none` (non-strings and
strings not starting with the marker yield `none`). -/
def extract_def_name : Json → Option String
  | .str s => if headMatches refMark s.data then some (String.mk (s.data.drop 8)) else none
  | _ => none

/-- The direct contribution of an object to `find_all_refs`: if the
object has a `"$ref"` key whose value parses to a nonempty definition
name, that name (the Python code guards with `if def_name:`, so the
empty name is dropped). -/
def directRef (kvs : JObj) : List String :=
  match kvs.lookup "$ref" with
  | some v =>
    match extract_def_name v with
    | some d => if d = "" then [] else [d]
    | none => []
  | none => []

mutual

/-- `find_all_refs` from the source: recursively scan a JSON fragment
for local references `{"$ref": "#/$defs/Name"}` and collect the names
(the Python function returns a set; here a list, used up to
membership). -/
def find_all_refs : Json → List String
  | .str _ => []
  | .num _ => []
  | .bool _ => []
  | .null => []
  | .arr xs => refsList xs
  | .obj kvs => directRef kvs ++ refsObj kvs

/-- `find_all_refs` folded over the elements of an array. -/
def refsList : JList → List String
  | .nil => []
  | .cons x xs => find_all_refs x ++ refsList xs

/-- `find_all_refs` folded over the values of an object (the Python
loop `for value in schema_fragment.values()`). -/
def refsObj : JObj → List String
  | .nil => []
  | .cons _ v rest => find_all_refs v ++ refsObj rest

end

mutual

/-- `prune_refs` from the source: rebuild a fragment, replacing the
value of any `"$ref"` entry whose nonempty target name is not in
`keep` by the sentinel string; all other entries are recursively
rebuilt (a `"$ref"` value is never recursed into). -/
def prune_refs : Json → List String → Json
  | .str s, _ => .str s
  | .num n, _ => .num n
  | .bool b, _ => .bool b
  | .null, _ => .null
  | .arr xs, keep => .arr (pruneList xs keep)
  | .obj kvs, keep => .obj (pruneObj kvs keep)

/-- `prune_refs` applied to each element of an array. -/
def pruneList : JList → List String → JList
  | .nil, _ => .nil
  | .cons x xs, keep => .cons (prune_refs x keep) (pruneList xs keep)

/-- `prune_refs` applied to the entries of an object, with the special
treatment of `"$ref"` keys from the source. -/
def pruneObj : JObj → List String → JObj
  | .nil, _ => .nil
  | .cons k v rest, keep =>
    if k = "$ref" then
      .cons k
        (match extract_def_name v with
         | some d => if d ≠ "" ∧ d ∉ keep then Json.str "#/$defs/REMOVED_REFERENCE" else v
         | none => v)
        (pruneObj rest keep)
    else .cons k (prune_refs v keep) (pruneObj rest keep)

end

/-- An object has pairwise distinct keys (always true of a parsed
Python dictionary). -/
def noDupKeys : JObj → Bool
  | .nil => true
  | .cons k _ rest => (rest.lookup k).isNone && noDupKeys rest

mutual

/-- Well-formedness of a JSON value as produced by `json.load`: every
object in it has pairwise distinct keys. -/
def wfJson : Json → Bool
  | .str _ => true
  | .num _ => true
  | .bool _ => true
  | .null => true
  | .arr xs => wfList xs
  | .obj kvs => noDupKeys kvs && wfObj kvs

/-- Well-formedness of every element of an array. -/
def wfList : JList → Bool
  | .nil => true
  | .cons x xs => wfJson x && wfList xs

/-- Well-formedness of every value of an object. -/
def wfObj : JObj → Bool
  | .nil => true
  | .cons _ v rest => wfJson v && wfObj rest

end

/-- The adjacency mapping of step 3 of `main`: a definition name maps
to the set of names referenced by its body (empty for names without an
entry, like the `defaultdict`).  Duplicate references collapse, as in
the Python set. -/
def adjOf (defs : JObj) (n : String) : List String :=
  match defs.lookup n with
  | some b => (find_all_refs b).dedup
  | none => []

/-- State of the breadth-first search of step 4 of `main`: the pending
queue, the visited (`reachable`) names in insertion order, and a log of
every name ever appended to the queue by the loop body. -/
structure BfsState where
  queue : List String
  reach : List String
  log : List String
deriving DecidableEq

/-- One iteration of the `while queue:` loop of `main`: pop the front;
if already visited, skip; otherwise mark visited and append every
not-yet-visited neighbour to the queue. -/
def bfsStep (adj : String → List String) (s : BfsState) : BfsState :=
  match s.queue with
  | [] => s
  | c :: rest =>
    if c ∈ s.reach then { queue := rest, reach := s.reach, log := s.log }
    else
      { queue := rest ++ (adj c).filter (fun n => decide (n ∉ s.reach ++ [c]))
        reach := s.reach ++ [c]
        log := s.log ++ (adj c).filter (fun n => decide (n ∉ s.reach ++ [c])) }

/-- Fuel-indexed iteration of `bfsStep`; the loop stops when the queue
is empty. -/
def bfsRun (adj : String → List String) : Nat → BfsState → BfsState
  | 0, s => s
  | fuel + 1, s =>
    match s.queue with
    | [] => s
    | _ :: _ => bfsRun adj fuel (bfsStep adj s)

/-- Initial search state: the queue holds the root
(`deque([target_def])`). -/
def bfsInit (root : String) : BfsState := ⟨[root], [], []⟩

/-- Every name referenced from any definition body (with the
per-definition duplicates collapsed). -/
def allTargets : JObj → List String
  | .nil => []
  | .cons _ v rest => (find_all_refs v).dedup ++ allTargets rest

/-- A finite universe containing every name the search can ever
enqueue: the root, all definition names, and all referenced names. -/
def uList (defs : JObj) (root : String) : List String :=
  root :: (defs.keys ++ allTargets defs)

/-- Fuel that always suffices for the search to drain its queue. -/
def bfsFuel (defs : JObj) (root : String) : Nat :=
  (uList defs root).length * ((allTargets defs).length + 1) + 1

/-- The state of the search after the `while` loop of `main` ends. -/
def bfsFinal (defs : JObj) (root : String) : BfsState :=
  bfsRun (adjOf defs) (bfsFuel defs root) (bfsInit root)

/-- The `reachable` set of `main`, as the list of names in the order
they were marked visited. -/
def reachableList (defs : JObj) (root : String) : List String :=
  (bfsFinal defs root).reach

/-- Step 5 of `main`: a new `$defs` object holding, for each reachable
name that has a definition, that original definition body. -/
def buildDefs : List String → JObj → JObj
  | [], _ => .nil
  | n :: rest, defs =>
    match defs.lookup n with
    | some b => .cons n b (buildDefs rest defs)
    | none => buildDefs rest defs

/-- The `new_defs` mapping of `main` before pruning. -/
def newDefsOf (defs : JObj) (root : String) : JObj :=
  buildDefs (reachableList defs root) defs

/-- Step 7 of `main`: `prune_refs` applied to every retained body. -/
def pruneDefs (keep : List String) : JObj → JObj
  | .nil => .nil
  | .cons k v rest => .cons k (prune_refs v keep) (pruneDefs keep rest)

/-- The `new_defs` mapping of `main` after the pruning pass, i.e. the
`$defs` object of the written document. -/
def prunedDefsOf (defs : JObj) (root : String) : JObj :=
  pruneDefs (reachableList defs root) (newDefsOf defs root)

/-- Step 6 of `main`: rebuild the top-level document, replacing the
value of the `$defs` key and keeping every other entry. -/
def replaceDefs : JObj → Json → JObj
  | .nil, _ => .nil
  | .cons k v rest, x =>
    if k = "$defs" then .cons k x (replaceDefs rest x)
    else .cons k v (replaceDefs rest x)

/-- Outcome of a run of `main` on an already-parsed document:
the fatal missing-`$defs` diagnostic, the crash on a non-object
`$defs` value (an uncaught Python exception), or success carrying the
written document, the reported count of retained definitions, and
whether the missing-root warning was printed. -/
inductive MainResult where
  | missingDefs (msg : String)
  | badDefs
  | success (out : JObj) (count : Nat) (warned : Bool)
deriving DecidableEq

/-- `main` from the source, from the parsed top-level object and the
root name to the outcome (file I/O and argument parsing are outside
the model). -/
def scanMain (doc : JObj) (root : String) : MainResult :=
  match doc.lookup "$defs" with
  | none => .missingDefs "Error: The schema does not have a top-level '$defs' key."
  | some (Json.obj defs) =>
    .success (replaceDefs doc (Json.obj (prunedDefsOf defs root)))
      (prunedDefsOf defs root).length
      (defs.lookup root).isNone
  | some _ => .badDefs

/-- Process exit status of a run (`sys.exit(1)` on the missing key, an
uncaught exception also terminates with status 1, implicit 0 on
success). -/
def exitStatus : MainResult → Nat
  | .missingDefs _ => 1
  | .badDefs => 1
  | .success _ _ _ => 0

/-- The document written to the output file, if any (the script only
opens the output file after the whole computation). -/
def writtenOutput : MainResult → Option JObj
  | .success out _ _ => some out
  | _ => none

/-- Forward reachability in an adjacency mapping: zero or more edges,
each from a name to one of the names its body references. -/
def Reaches (adj : String → List String) (a b : String) : Prop :=
  Relation.ReflTransGen (fun x y => y ∈ adj x) a b

/-- Invariant of the breadth-first search loop: every queued or visited
name is reachable from the root, every edge out of a visited name leads
to a visited or queued name, the root is visited or queued, and no name
is visited twice. -/
structure BfsInv (adj : String → List String) (root : String) (s : BfsState) : Prop where
  sound_q : ∀ x ∈ s.queue, Reaches adj root x
  sound_r : ∀ x ∈ s.reach, Reaches adj root x
  closed : ∀ x ∈ s.reach, ∀ y ∈ adj x, y ∈ s.reach ∨ y ∈ s.queue
  rootIn : root ∈ s.reach ∨ root ∈ s.queue
  nd : s.reach.Nodup

/-- Modelled from the spec (section 4.1): the names "appearing in
local-pointer reference strings at any nesting depth inside objects
and arrays" — an object carrying a `"$ref"` key whose string value is
the marker followed by the name contributes that name, and the
relation recurses into every object value and every array element. -/
inductive SpecRef : String → Json → Prop where
  | here (kvs : JObj) (s n : String) :
      kvs.lookup "$ref" = some (.str s) → s.data = refMark ++ n.data →
      SpecRef n (.obj kvs)
  | inObj (kvs : JObj) (k : String) (v : Json) (n : String) :
      JObj.Pair k v kvs → SpecRef n v → SpecRef n (.obj kvs)
  | inArr (xs : JList) (x : Json) (n : String) :
      JList.Elem x xs → SpecRef n x → SpecRef n (.arr xs)

/-- Modelled from the spec (sections 3 and 8): "restricting the
original definitions mapping to the reachable set", with no rewriting
of the retained bodies. -/
def restrictDefs : JObj → List String → JObj
  | .nil, _ => .nil
  | .cons k v rest, keep =>
    if k ∈ keep then .cons k v (restrictDefs rest keep) else restrictDefs rest keep

/-- Example document: a single definition `A` whose body references a
name `B` that has no definition (scenario 2 of the spec). -/
def exDanglingDefs : JObj :=
  .cons "A" (.obj (.cons "$ref" (.str "#/$defs/B") .nil)) .nil

/-- Example adjacency diamond: `R` references `A` and `B`, both of
which reference `C`. -/
def exDiamondDefs : JObj :=
  .cons "R" (.obj (.cons "a" (.obj (.cons "$ref" (.str "#/$defs/A") .nil))
                   (.cons "b" (.obj (.cons "$ref" (.str "#/$defs/B") .nil)) .nil)))
  (.cons "A" (.obj (.cons "$ref" (.str "#/$defs/C") .nil))
  (.cons "B" (.obj (.cons "$ref" (.str "#/$defs/C") .nil))
  (.cons "C" (.obj .nil) .nil)))

/-- Example chain from scenario 1 of the spec: `A → B → C`, plus `D`
referencing back to `A`. -/
def exChainDefs : JObj :=
  .cons "A" (.obj (.cons "$ref" (.str "#/$defs/B") .nil))
  (.cons "B" (.obj (.cons "$ref" (.str "#/$defs/C") .nil))
  (.cons "C" (.obj .nil)
  (.cons "D" (.obj (.cons "$ref" (.str "#/$defs/A") .nil)) .nil)))

/-- Example top-level document wrapping `exChainDefs` with a sibling
key. -/
def exChainDoc : JObj :=
  .cons "title" (.str "demo") (.cons "$defs" (.obj exChainDefs) .nil)

/-! ### Basic lemmas about objects, the marker string, and extraction -/

/-- Structural induction for `JObj` along its own spine (no induction
hypothesis for the values). -/
theorem jobjInd {P : JObj → Prop} (hnil : P .nil)
    (hcons : ∀ k v rest, P rest → P (.cons k v rest)) : ∀ kvs, P kvs
  | .nil => hnil
  | .cons k v rest => hcons k v rest (jobjInd hnil hcons rest)

/-- Structural induction for `JList` along its own spine. -/
theorem jlistInd {P : JList → Prop} (hnil : P .nil)
    (hcons : ∀ x rest, P rest → P (.cons x rest)) : ∀ xs, P xs
  | .nil => hnil
  | .cons x rest => hcons x rest (jlistInd hnil hcons rest)

theorem JObj.pair_of_lookup {kvs : JObj} {k : String} {v : Json}
    (h : kvs.lookup k = some v) : JObj.Pair k v kvs := by
  induction kvs using jobjInd with
  | hnil => simp [JObj.lookup] at h
  | hcons k1 v1 rest ih =>
    rw [JObj.lookup] at h
    by_cases hk : k1 = k
    · simp [hk] at h
      subst hk h
      exact JObj.Pair.head _ _ _
    · simp [hk] at h
      exact JObj.Pair.tail _ _ _ _ _ (ih h)

theorem JObj.lookup_isSome_of_pair {kvs : JObj} {k : String} {v : Json}
    (h : JObj.Pair k v kvs) : (kvs.lookup k).isSome := by
  induction h with
  | head rest => simp [JObj.lookup]
  | tail k1 v1 rest hp ih =>
    rw [JObj.lookup]
    by_cases hk : k1 = k <;> simp [hk, ih]

theorem JObj.mem_keys_iff {kvs : JObj} {k : String} :
    k ∈ kvs.keys ↔ (kvs.lookup k).isSome := by
  induction kvs using jobjInd with
  | hnil => simp [JObj.keys, JObj.lookup]
  | hcons k1 v1 rest ih =>
    rw [JObj.keys, JObj.lookup]
    by_cases hk : k1 = k
    · subst hk
      simp
    · rw [if_neg hk]
      constructor
      · intro hmem
        rcases List.mem_cons.mp hmem with h | h
        · exact absurd h.symm hk
        · exact ih.mp h
      · intro hs
        exact List.mem_cons_of_mem _ (ih.mpr hs)

theorem noDupKeys_lookup_of_pair {kvs : JObj} {k : String} {v : Json}
    (hnd : noDupKeys kvs = true) (h : JObj.Pair k v kvs) :
    kvs.lookup k = some v := by
  induction h with
  | head rest => simp [JObj.lookup]
  | tail k1 v1 rest hp ih =>
    rw [noDupKeys, Bool.and_eq_true] at hnd
    rw [JObj.lookup]
    by_cases hk : k1 = k
    · subst hk
      have hs := JObj.lookup_isSome_of_pair hp
      rw [Option.isNone_iff_eq_none] at hnd
      rw [hnd.1] at hs
      simp at hs
    · simp [hk]
      exact ih hnd.2

theorem wfObj_pair {kvs : JObj} {k : String} {v : Json}
    (hwf : wfObj kvs = true) (h : JObj.Pair k v kvs) : wfJson v = true := by
  induction h with
  | head rest => rw [wfObj, Bool.and_eq_true] at hwf; exact hwf.1
  | tail k1 v1 rest hp ih =>
    rw [wfObj, Bool.and_eq_true] at hwf
    exact ih hwf.2

theorem headMatches_iff {a b : List Char} :
    headMatches a b = true ↔ ∃ t, b = a ++ t := by
  induction a generalizing b with
  | nil => simp [headMatches]
  | cons c cs ih =>
    cases b with
    | nil =>
      simp [headMatches]
    | cons d ds =>
      rw [headMatches, Bool.and_eq_true, beq_iff_eq, ih]
      constructor
      · rintro ⟨hc, t, ht⟩
        exact ⟨t, by simp [hc, ht]⟩
      · rintro ⟨t, ht⟩
        simp at ht
        exact ⟨ht.1.symm, t, ht.2⟩

theorem extract_eq_some_iff {v : Json} {d : String} :
    extract_def_name v = some d ↔
      ∃ s : String, v = .str s ∧ s.data = refMark ++ d.data := by
  constructor
  · intro h
    cases v with
    | str s =>
      rw [extract_def_name] at h
      by_cases hm : headMatches refMark s.data = true
      · rw [if_pos hm] at h
        obtain ⟨t, ht⟩ := headMatches_iff.mp hm
        refine ⟨s, rfl, ?_⟩
        simp at h
        rw [← h]
        show s.data = refMark ++ s.data.drop 8
        rw [ht, List.drop_left' (by rfl)]
      · rw [if_neg hm] at h
        exact absurd h (by simp)
    | num n => simp [extract_def_name] at h
    | bool b => simp [extract_def_name] at h
    | null => simp [extract_def_name] at h
    | arr xs => simp [extract_def_name] at h
    | obj kvs => simp [extract_def_name] at h
  · rintro ⟨s, rfl, hs⟩
    have hm : headMatches refMark s.data = true := headMatches_iff.mpr ⟨d.data, hs⟩
    rw [extract_def_name, if_pos hm, hs, List.drop_left' (by rfl)]

theorem string_ne_empty_iff {d : String} : d ≠ "" ↔ d.data ≠ [] := by
  rw [ne_eq, ne_eq, String.ext_iff]

theorem mem_refsObj_iff {kvs : JObj} {n : String} :
    n ∈ refsObj kvs ↔ ∃ k v, JObj.Pair k v kvs ∧ n ∈ find_all_refs v := by
  induction kvs using jobjInd with
  | hnil =>
    rw [refsObj]
    simp only [List.not_mem_nil, false_iff]
    rintro ⟨k, v, hp, _⟩
    cases hp
  | hcons k1 v1 rest ih =>
    rw [refsObj, List.mem_append, ih]
    constructor
    · rintro (h | ⟨k, v, hp, hm⟩)
      · exact ⟨k1, v1, JObj.Pair.head _ _ _, h⟩
      · exact ⟨k, v, JObj.Pair.tail _ _ _ _ _ hp, hm⟩
    · rintro ⟨k, v, hp, hm⟩
      cases hp with
      | head => exact Or.inl hm
      | tail k2 v2 rest2 hp1 => exact Or.inr ⟨k, v, hp1, hm⟩

theorem mem_refsList_iff {xs : JList} {n : String} :
    n ∈ refsList xs ↔ ∃ x, JList.Elem x xs ∧ n ∈ find_all_refs x := by
  induction xs using jlistInd with
  | hnil =>
    rw [refsList]
    simp only [List.not_mem_nil, false_iff]
    rintro ⟨x, he, _⟩
    cases he
  | hcons x1 rest ih =>
    rw [refsList, List.mem_append, ih]
    constructor
    · rintro (h | ⟨x, he, hm⟩)
      · exact ⟨x1, JList.Elem.head _ _, h⟩
      · exact ⟨x, JList.Elem.tail _ _ _ he, hm⟩
    · rintro ⟨x, he, hm⟩
      cases he with
      | head => exact Or.inl hm
      | tail y rest2 he1 => exact Or.inr ⟨x, he1, hm⟩

theorem directRef_eq_of_lookup {kvs : JObj} {v : Json} {d1 : String}
    (hl : kvs.lookup "$ref" = some v) (he : extract_def_name v = some d1) :
    directRef kvs = if d1 = "" then [] else [d1] := by
  simp only [directRef, hl, he]

theorem directRef_eq_nil_of_none {kvs : JObj}
    (hl : kvs.lookup "$ref" = none) : directRef kvs = [] := by
  simp only [directRef, hl]

theorem directRef_eq_nil_of_extract_none {kvs : JObj} {v : Json}
    (hl : kvs.lookup "$ref" = some v) (he : extract_def_name v = none) :
    directRef kvs = [] := by
  simp only [directRef, hl, he]

theorem mem_directRef_iff {kvs : JObj} {d : String} :
    d ∈ directRef kvs ↔
      ∃ v, kvs.lookup "$ref" = some v ∧ extract_def_name v = some d ∧ d ≠ "" := by
  constructor
  · intro hmem
    cases hl : kvs.lookup "$ref" with
    | none => rw [directRef_eq_nil_of_none hl] at hmem; simp at hmem
    | some v =>
      cases he : extract_def_name v with
      | none => rw [directRef_eq_nil_of_extract_none hl he] at hmem; simp at hmem
      | some d1 =>
        rw [directRef_eq_of_lookup hl he] at hmem
        by_cases hd : d1 = ""
        · rw [if_pos hd] at hmem; simp at hmem
        · rw [if_neg hd] at hmem
          rcases List.mem_singleton.mp hmem with rfl
          exact ⟨v, rfl, he, hd⟩
  · rintro ⟨v, hl, he, hd⟩
    rw [directRef_eq_of_lookup hl he, if_neg hd]
    exact List.mem_singleton.mpr rfl

theorem mem_refs_obj {kvs : JObj} {n : String} :
    n ∈ find_all_refs (.obj kvs) ↔ n ∈ directRef kvs ∨ n ∈ refsObj kvs := by
  rw [find_all_refs, List.mem_append]

/-! ### Characterization of the reference extractor against the spec -/

mutual

theorem refs_spec : ∀ (v : Json) (n : String),
    n ∈ find_all_refs v ↔ (n ≠ "" ∧ SpecRef n v)
  | .str s, n => by
    rw [find_all_refs]
    simp only [List.not_mem_nil, false_iff]
    rintro ⟨_, h⟩
    cases h
  | .num m, n => by
    rw [find_all_refs]
    simp only [List.not_mem_nil, false_iff]
    rintro ⟨_, h⟩
    cases h
  | .bool b, n => by
    rw [find_all_refs]
    simp only [List.not_mem_nil, false_iff]
    rintro ⟨_, h⟩
    cases h
  | .null, n => by
    rw [find_all_refs]
    simp only [List.not_mem_nil, false_iff]
    rintro ⟨_, h⟩
    cases h
  | .arr xs, n => by
    rw [find_all_refs, refsList_spec xs n]
    constructor
    · rintro ⟨hne, x, he, hs⟩
      exact ⟨hne, SpecRef.inArr xs x n he hs⟩
    · rintro ⟨hne, h⟩
      cases h with
      | inArr xs x n he hs => exact ⟨hne, x, he, hs⟩
  | .obj kvs, n => by
    rw [mem_refs_obj]
    constructor
    · rintro (hd | hr)
      · obtain ⟨v, hl, he, hne⟩ := mem_directRef_iff.mp hd
        obtain ⟨s, rfl, hs⟩ := extract_eq_some_iff.mp he
        exact ⟨hne, SpecRef.here kvs s n hl hs⟩
      · obtain ⟨hne, k, v, hp, hs⟩ := (refsObj_spec kvs n).mp hr
        exact ⟨hne, SpecRef.inObj kvs k v n hp hs⟩
    · rintro ⟨hne, h⟩
      cases h with
      | here kvs s n hl hs =>
        exact Or.inl (mem_directRef_iff.mpr
          ⟨.str s, hl, extract_eq_some_iff.mpr ⟨s, rfl, hs⟩, hne⟩)
      | inObj kvs k v n hp hs =>
        exact Or.inr ((refsObj_spec kvs n).mpr ⟨hne, k, v, hp, hs⟩)

theorem refsList_spec : ∀ (xs : JList) (n : String),
    n ∈ refsList xs ↔ (n ≠ "" ∧ ∃ x, JList.Elem x xs ∧ SpecRef n x)
  | .nil, n => by
    rw [refsList]
    simp only [List.not_mem_nil, false_iff]
    rintro ⟨_, x, he, _⟩
    cases he
  | .cons x1 rest, n => by
    rw [refsList, List.mem_append, refs_spec x1 n, refsList_spec rest n]
    constructor
    · rintro (⟨hne, hs⟩ | ⟨hne, x, he, hs⟩)
      · exact ⟨hne, x1, JList.Elem.head _ _, hs⟩
      · exact ⟨hne, x, JList.Elem.tail _ _ _ he, hs⟩
    · rintro ⟨hne, x, he, hs⟩
      cases he with
      | head => exact Or.inl ⟨hne, hs⟩
      | tail y rest2 he1 => exact Or.inr ⟨hne, x, he1, hs⟩

theorem refsObj_spec : ∀ (kvs : JObj) (n : String),
    n ∈ refsObj kvs ↔ (n ≠ "" ∧ ∃ k v, JObj.Pair k v kvs ∧ SpecRef n v)
  | .nil, n => by
    rw [refsObj]
    simp only [List.not_mem_nil, false_iff]
    rintro ⟨_, k, v, hp, _⟩
    cases hp
  | .cons k1 v1 rest, n => by
    rw [refsObj, List.mem_append, refs_spec v1 n, refsObj_spec rest n]
    constructor
    · rintro (⟨hne, hs⟩ | ⟨hne, k, v, hp, hs⟩)
      · exact ⟨hne, k1, v1, JObj.Pair.head _ _ _, hs⟩
      · exact ⟨hne, k, v, JObj.Pair.tail _ _ _ _ _ hp, hs⟩
    · rintro ⟨hne, k, v, hp, hs⟩
      cases hp with
      | head => exact Or.inl ⟨hne, hs⟩
      | tail k2 v2 rest2 hp1 => exact Or.inr ⟨hne, k, v, hp1, hs⟩

end

/-! ### Pruning is the identity when every reference target is kept -/

mutual

theorem prune_id : ∀ (v : Json) (keep : List String), wfJson v = true →
    (∀ n ∈ find_all_refs v, n ∈ keep) → prune_refs v keep = v
  | .str s, keep => by intro _ _; rfl
  | .num m, keep => by intro _ _; rfl
  | .bool b, keep => by intro _ _; rfl
  | .null, keep => by intro _ _; rfl
  | .arr xs, keep => by
    intro hwf hsub
    rw [prune_refs, pruneList_id xs keep hwf hsub]
  | .obj kvs, keep => by
    intro hwf hsub
    rw [wfJson, Bool.and_eq_true] at hwf
    rw [prune_refs, pruneObj_id kvs keep hwf.1 hwf.2 hsub]

theorem pruneList_id : ∀ (xs : JList) (keep : List String), wfList xs = true →
    (∀ n ∈ refsList xs, n ∈ keep) → pruneList xs keep = xs
  | .nil, keep => by intro _ _; rfl
  | .cons x rest, keep => by
    intro hwf hsub
    rw [wfList, Bool.and_eq_true] at hwf
    rw [pruneList,
      prune_id x keep hwf.1 (fun n hn => hsub n (by rw [refsList, List.mem_append]; exact Or.inl hn)),
      pruneList_id rest keep hwf.2 (fun n hn => hsub n (by rw [refsList, List.mem_append]; exact Or.inr hn))]

theorem pruneObj_id : ∀ (kvs : JObj) (keep : List String), noDupKeys kvs = true →
    wfObj kvs = true → (∀ n ∈ find_all_refs (.obj kvs), n ∈ keep) →
    pruneObj kvs keep = kvs
  | .nil, keep => by intro _ _ _; rfl
  | .cons k1 v1 rest, keep => by
    intro hnd hwf hsub
    rw [noDupKeys, Bool.and_eq_true] at hnd
    rw [wfObj, Bool.and_eq_true] at hwf
    have hsubRest : ∀ n ∈ refsObj rest, n ∈ keep := fun n hn =>
      hsub n (by
        rw [mem_refs_obj, refsObj, List.mem_append]
        exact Or.inr (Or.inr hn))
    rw [pruneObj]
    by_cases hk : k1 = "$ref"
    · subst hk
      rw [if_pos rfl]
      have hrestDirect : directRef rest = [] := by
        apply directRef_eq_nil_of_none
        rw [← Option.isNone_iff_eq_none]
        exact hnd.1
      have htail : pruneObj rest keep = rest :=
        pruneObj_id rest keep hnd.2 hwf.2 (fun n hn => by
          rw [mem_refs_obj, hrestDirect] at hn
          rcases hn with hn | hn
          · simp at hn
          · exact hsubRest n hn)
      rw [htail]
      cases he : extract_def_name v1 with
      | none => rfl
      | some d =>
        have hcond : ¬ (d ≠ "" ∧ d ∉ keep) := by
          rintro ⟨hne, hnk⟩
          apply hnk
          apply hsub
          rw [mem_refs_obj]
          refine Or.inl (mem_directRef_iff.mpr ⟨v1, ?_, he, hne⟩)
          rw [JObj.lookup, if_pos rfl]
        show JObj.cons "$ref"
            (if d ≠ "" ∧ d ∉ keep then Json.str "#/$defs/REMOVED_REFERENCE" else v1) rest
          = JObj.cons "$ref" v1 rest
        rw [if_neg hcond]
    · rw [if_neg hk]
      have hv1 : prune_refs v1 keep = v1 :=
        prune_id v1 keep hwf.1 (fun n hn =>
          hsub n (by
            rw [mem_refs_obj, refsObj, List.mem_append]
            exact Or.inr (Or.inl hn)))
      rw [hv1]
      have hlk : (JObj.cons k1 v1 rest).lookup "$ref" = rest.lookup "$ref" := by
        rw [JObj.lookup, if_neg hk]
      have hrestDirect : directRef rest = directRef (JObj.cons k1 v1 rest) := by
        unfold directRef
        rw [hlk]
      have htail : pruneObj rest keep = rest :=
        pruneObj_id rest keep hnd.2 hwf.2 (fun n hn => by
          rw [mem_refs_obj] at hn
          rcases hn with hn | hn
          · apply hsub
            rw [mem_refs_obj]
            exact Or.inl (by rw [← hrestDirect]; exact hn)
          · exact hsubRest n hn)
      rw [htail]

end

/-! ### Lemmas about the breadth-first search -/

theorem bfsStep_skip {adj : String → List String} {c : String}
    {rest r l : List String} (hc : c ∈ r) :
    bfsStep adj ⟨c :: rest, r, l⟩ = ⟨rest, r, l⟩ := by
  simp [bfsStep, hc]

theorem bfsStep_mark {adj : String → List String} {c : String}
    {rest r l : List String} (hc : c ∉ r) :
    bfsStep adj ⟨c :: rest, r, l⟩ =
      ⟨rest ++ (adj c).filter (fun n => decide (n ∉ r ++ [c])), r ++ [c],
        l ++ (adj c).filter (fun n => decide (n ∉ r ++ [c]))⟩ := by
  simp [bfsStep, hc]

theorem bfsRun_empty (adj : String → List String) (f : Nat) {s : BfsState}
    (h : s.queue = []) : bfsRun adj f s = s := by
  cases f with
  | zero => rfl
  | succ f =>
    obtain ⟨q, r, l⟩ := s
    simp only at h
    subst h
    rfl

theorem bfsRun_add (adj : String → List String) (f g : Nat) (s : BfsState) :
    bfsRun adj (f + g) s = bfsRun adj g (bfsRun adj f s) := by
  induction f generalizing s with
  | zero =>
    rw [Nat.zero_add]
    rfl
  | succ f ih =>
    obtain ⟨q, r, l⟩ := s
    cases q with
    | nil =>
      rw [bfsRun_empty adj (f + 1 + g) rfl, bfsRun_empty adj (f + 1) rfl]
      exact (bfsRun_empty adj g rfl).symm
    | cons c rest =>
      have h1 : f + 1 + g = (f + g) + 1 := by omega
      rw [h1]
      show bfsRun adj (f + g) (bfsStep adj ⟨c :: rest, r, l⟩)
        = bfsRun adj g (bfsRun adj f (bfsStep adj ⟨c :: rest, r, l⟩))
      exact ih _

theorem bfsRun_eq_of_drained (adj : String → List String) {f g : Nat} {s : BfsState}
    (hf : (bfsRun adj f s).queue = []) (hg : (bfsRun adj g s).queue = []) :
    bfsRun adj f s = bfsRun adj g s := by
  rcases Nat.le_total f g with h | h
  · obtain ⟨k, rfl⟩ := Nat.le.dest h
    rw [bfsRun_add, bfsRun_empty adj k hf]
  · obtain ⟨k, rfl⟩ := Nat.le.dest h
    rw [bfsRun_add, bfsRun_empty adj k hg]

theorem bfsStep_inv {adj : String → List String} {root : String} {s : BfsState}
    (h : BfsInv adj root s) : BfsInv adj root (bfsStep adj s) := by
  obtain ⟨q, r, l⟩ := s
  cases q with
  | nil => exact h
  | cons c rest =>
    by_cases hc : c ∈ r
    · rw [bfsStep_skip hc]
      refine ⟨?_, h.sound_r, ?_, ?_, h.nd⟩
      · exact fun x hx => h.sound_q x (List.mem_cons_of_mem _ hx)
      · intro x hx y hy
        rcases h.closed x hx y hy with h1 | h1
        · exact Or.inl h1
        · rcases List.mem_cons.mp h1 with rfl | h2
          · exact Or.inl hc
          · exact Or.inr h2
      · rcases h.rootIn with h1 | h1
        · exact Or.inl h1
        · rcases List.mem_cons.mp h1 with rfl | h2
          · exact Or.inl hc
          · exact Or.inr h2
    · rw [bfsStep_mark hc]
      have hcr : Reaches adj root c := h.sound_q c (List.mem_cons_self _ _)
      refine ⟨?_, ?_, ?_, ?_, ?_⟩
      · intro x hx
        rcases List.mem_append.mp hx with h1 | h1
        · exact h.sound_q x (List.mem_cons_of_mem _ h1)
        · exact Relation.ReflTransGen.tail hcr (List.mem_of_mem_filter h1)
      · intro x hx
        rcases List.mem_append.mp hx with h1 | h1
        · exact h.sound_r x h1
        · rcases List.mem_singleton.mp h1 with rfl
          exact hcr
      · intro x hx y hy
        rcases List.mem_append.mp hx with h1 | h1
        · rcases h.closed x h1 y hy with h2 | h2
          · exact Or.inl (List.mem_append_left _ h2)
          · rcases List.mem_cons.mp h2 with rfl | h3
            · exact Or.inl (List.mem_append_right _ (List.mem_singleton.mpr rfl))
            · exact Or.inr (List.mem_append_left _ h3)
        · rcases List.mem_singleton.mp h1 with rfl
          by_cases hy2 : y ∈ r ++ [x]
          · exact Or.inl hy2
          · refine Or.inr (List.mem_append_right _ ?_)
            rw [List.mem_filter]
            exact ⟨hy, by simpa using hy2⟩
      · rcases h.rootIn with h1 | h1
        · exact Or.inl (List.mem_append_left _ h1)
        · rcases List.mem_cons.mp h1 with rfl | h2
          · exact Or.inl (List.mem_append_right _ (List.mem_singleton.mpr rfl))
          · exact Or.inr (List.mem_append_left _ h2)
      · exact List.Nodup.append h.nd (List.nodup_singleton c)
          (fun a ha ha2 => hc (by rwa [← List.mem_singleton.mp ha2]))

theorem bfsRun_inv {adj : String → List String} {root : String} :
    ∀ (f : Nat) (s : BfsState), BfsInv adj root s → BfsInv adj root (bfsRun adj f s) := by
  intro f
  induction f with
  | zero => exact fun s h => h
  | succ f ih =>
    intro s h
    obtain ⟨q, r, l⟩ := s
    cases q with
    | nil => exact h
    | cons c rest =>
      show BfsInv adj root (bfsRun adj f (bfsStep adj ⟨c :: rest, r, l⟩))
      exact ih _ (bfsStep_inv h)

theorem bfsInit_inv (adj : String → List String) (root : String) :
    BfsInv adj root (bfsInit root) := by
  refine ⟨?_, ?_, ?_, ?_, ?_⟩
  · intro x hx
    rcases List.mem_singleton.mp hx with rfl
    exact Relation.ReflTransGen.refl
  · intro x hx
    simp [bfsInit] at hx
  · intro x hx
    simp [bfsInit] at hx
  · exact Or.inr (List.mem_singleton.mpr rfl)
  · exact List.nodup_nil

theorem length_filter_impl {α : Type} (l : List α) (p q : α → Bool)
    (h : ∀ x, p x = true → q x = true) :
    (l.filter p).length ≤ (l.filter q).length := by
  induction l with
  | nil => exact Nat.le_refl _
  | cons a l ih =>
    rw [List.filter_cons, List.filter_cons]
    by_cases hp : p a = true
    · rw [if_pos hp, if_pos (h a hp)]
      simpa using ih
    · rw [if_neg hp]
      by_cases hq : q a = true
      · rw [if_pos hq]
        exact Nat.le_succ_of_le ih
      · rw [if_neg hq]
        exact ih

theorem length_filter_lt {α : Type} (l : List α) (p q : α → Bool)
    (h : ∀ x, p x = true → q x = true) (c : α) (hc : c ∈ l)
    (hqc : q c = true) (hpc : p c = false) :
    (l.filter p).length < (l.filter q).length := by
  induction l with
  | nil => cases hc
  | cons a l ih =>
    rw [List.filter_cons, List.filter_cons]
    rcases List.mem_cons.mp hc with rfl | hcl
    · rw [if_neg (by rw [hpc]; exact Bool.false_ne_true), if_pos hqc]
      simp only [List.length_cons]
      exact Nat.lt_succ_of_le (length_filter_impl l p q h)
    · by_cases hp : p a = true
      · rw [if_pos hp, if_pos (h a hp)]
        simp only [List.length_cons]
        exact Nat.succ_lt_succ (ih hcl)
      · rw [if_neg hp]
        by_cases hq : q a = true
        · rw [if_pos hq]
          simp only [List.length_cons]
          exact Nat.lt_succ_of_lt (ih hcl)
        · rw [if_neg hq]
          exact ih hcl

theorem bfsRun_drains (adj : String → List String) (U : List String) (Bnd : Nat)
    (hadjU : ∀ x y, y ∈ adj x → y ∈ U) (hadjB : ∀ x, (adj x).length ≤ Bnd) :
    ∀ (f : Nat) (s : BfsState), (∀ x ∈ s.queue, x ∈ U) →
      (U.filter (fun x => decide (x ∉ s.reach))).length * (Bnd + 1) + s.queue.length ≤ f →
      (bfsRun adj f s).queue = [] := by
  intro f
  induction f with
  | zero =>
    intro s hq hm
    have h0 : s.queue.length = 0 := by omega
    exact List.length_eq_zero.mp h0
  | succ f ih =>
    intro s hq hm
    obtain ⟨q, r, l⟩ := s
    cases q with
    | nil => rw [bfsRun_empty adj (f + 1) rfl]
    | cons c rest =>
      show (bfsRun adj f (bfsStep adj ⟨c :: rest, r, l⟩)).queue = []
      by_cases hc : c ∈ r
      · rw [bfsStep_skip hc]
        apply ih _ (fun x hx => hq x (List.mem_cons_of_mem _ hx))
        dsimp only
        simp only [List.length_cons] at hm
        omega
      · rw [bfsStep_mark hc]
        have hcU : c ∈ U := hq c (List.mem_cons_self _ _)
        have himpl : ∀ x : String,
            decide (x ∉ r ++ [c]) = true → decide (x ∉ r) = true := by
          intro x hx
          rw [decide_eq_true_iff] at hx ⊢
          exact fun hmem => hx (List.mem_append_left _ hmem)
        have hstrict : (U.filter (fun x => decide (x ∉ r ++ [c]))).length
            < (U.filter (fun x => decide (x ∉ r))).length := by
          apply length_filter_lt U _ _ himpl c hcU
          · rw [decide_eq_true_iff]
            exact hc
          · rw [decide_eq_false_iff_not]
            intro hx
            exact hx (List.mem_append_right _ (List.mem_singleton.mpr rfl))
        have hnews : ((adj c).filter (fun n => decide (n ∉ r ++ [c]))).length ≤ Bnd :=
          Nat.le_trans (List.length_filter_le _ _) (hadjB c)
        apply ih
        · intro x hx
          rcases List.mem_append.mp hx with h1 | h1
          · exact hq x (List.mem_cons_of_mem _ h1)
          · exact hadjU c x (List.mem_of_mem_filter h1)
        · dsimp only
          simp only [List.length_append, List.length_cons] at hm ⊢
          have hmul : ((U.filter (fun x => decide (x ∉ r ++ [c]))).length + 1) * (Bnd + 1)
              ≤ (U.filter (fun x => decide (x ∉ r))).length * (Bnd + 1) :=
            Nat.mul_le_mul_right _ hstrict
          rw [Nat.add_mul, Nat.one_mul] at hmul
          omega

theorem bfsRun_congr {adj adj2 : String → List String} {S : List String}
    (hagree : ∀ x ∈ S, adj x = adj2 x) (hclosed : ∀ x ∈ S, ∀ y ∈ adj x, y ∈ S) :
    ∀ (f : Nat) (s : BfsState), (∀ x ∈ s.queue, x ∈ S) →
      bfsRun adj f s = bfsRun adj2 f s := by
  intro f
  induction f with
  | zero => intro s _; rfl
  | succ f ih =>
    intro s hq
    obtain ⟨q, r, l⟩ := s
    cases q with
    | nil => rfl
    | cons c rest =>
      have hcS : c ∈ S := hq c (List.mem_cons_self _ _)
      have hstep : bfsStep adj ⟨c :: rest, r, l⟩ = bfsStep adj2 ⟨c :: rest, r, l⟩ := by
        by_cases hc : c ∈ r
        · rw [bfsStep_skip hc, bfsStep_skip hc]
        · rw [bfsStep_mark hc, bfsStep_mark hc, hagree c hcS]
      show bfsRun adj f (bfsStep adj ⟨c :: rest, r, l⟩)
        = bfsRun adj2 f (bfsStep adj2 ⟨c :: rest, r, l⟩)
      rw [← hstep]
      apply ih
      intro x hx
      by_cases hc : c ∈ r
      · rw [bfsStep_skip hc] at hx
        exact hq x (List.mem_cons_of_mem _ hx)
      · rw [bfsStep_mark hc] at hx
        rcases List.mem_append.mp hx with h1 | h1
        · exact hq x (List.mem_cons_of_mem _ h1)
        · exact hclosed c hcS x (List.mem_of_mem_filter h1)

/-! ### The search of `main` computes exactly the forward closure -/

theorem lookup_refs_sub {defs : JObj} {n : String} {b : Json}
    (hl : defs.lookup n = some b) :
    ∀ y ∈ (find_all_refs b).dedup, y ∈ allTargets defs := by
  induction defs using jobjInd with
  | hnil => simp [JObj.lookup] at hl
  | hcons k v rest ih =>
    rw [JObj.lookup] at hl
    rw [allTargets]
    by_cases hk : k = n
    · rw [if_pos hk] at hl
      intro y hy
      cases hl
      exact List.mem_append_left _ hy
    · rw [if_neg hk] at hl
      intro y hy
      exact List.mem_append_right _ (ih hl y hy)

theorem lookup_refs_len {defs : JObj} {n : String} {b : Json}
    (hl : defs.lookup n = some b) :
    (find_all_refs b).dedup.length ≤ (allTargets defs).length := by
  induction defs using jobjInd with
  | hnil => simp [JObj.lookup] at hl
  | hcons k v rest ih =>
    rw [JObj.lookup] at hl
    rw [allTargets, List.length_append]
    by_cases hk : k = n
    · rw [if_pos hk] at hl
      cases hl
      exact Nat.le_add_right _ _
    · rw [if_neg hk] at hl
      exact Nat.le_add_left _ _ |>.trans (Nat.add_le_add_left (ih hl) _) |>.trans (Nat.le_refl _)

theorem adjOf_sub {defs : JObj} {root : String} :
    ∀ x y, y ∈ adjOf defs x → y ∈ uList defs root := by
  intro x y hy
  rw [adjOf] at hy
  cases hl : defs.lookup x with
  | none => rw [hl] at hy; simp at hy
  | some b =>
    rw [hl] at hy
    exact List.mem_cons_of_mem _ (List.mem_append_right _ (lookup_refs_sub hl y hy))

theorem adjOf_len {defs : JObj} :
    ∀ x, (adjOf defs x).length ≤ (allTargets defs).length := by
  intro x
  rw [adjOf]
  cases hl : defs.lookup x with
  | none => exact Nat.zero_le _
  | some b => exact lookup_refs_len hl

theorem adjOf_mem_iff {defs : JObj} {n y : String} :
    y ∈ adjOf defs n ↔ ∃ b, defs.lookup n = some b ∧ y ∈ find_all_refs b := by
  rw [adjOf]
  cases hl : defs.lookup n with
  | none => simp
  | some b =>
    rw [List.mem_dedup]
    constructor
    · exact fun h => ⟨b, rfl, h⟩
    · rintro ⟨b1, hb1, h⟩
      cases hb1
      exact h

theorem bfsFinal_queue_empty (defs : JObj) (root : String) :
    (bfsFinal defs root).queue = [] := by
  apply bfsRun_drains (adjOf defs) (uList defs root) (allTargets defs).length
    adjOf_sub (fun x => adjOf_len x)
  · intro x hx
    rcases List.mem_singleton.mp hx with rfl
    exact List.mem_cons_self _ _
  · have hfilter : (uList defs root).filter (fun x => decide (x ∉ (bfsInit root).reach))
        = uList defs root :=
      List.filter_eq_self.mpr (fun x _ => by simp [bfsInit])
    rw [hfilter]
    exact Nat.le_refl _

theorem bfsFinal_inv (defs : JObj) (root : String) :
    BfsInv (adjOf defs) root (bfsFinal defs root) :=
  bfsRun_inv _ _ (bfsInit_inv (adjOf defs) root)

theorem reach_iff {defs : JObj} {root x : String} :
    x ∈ reachableList defs root ↔ Reaches (adjOf defs) root x := by
  constructor
  · exact fun h => (bfsFinal_inv defs root).sound_r x h
  · intro h
    induction h with
    | refl =>
      rcases (bfsFinal_inv defs root).rootIn with h1 | h1
      · exact h1
      · rw [bfsFinal_queue_empty defs root] at h1
        cases h1
    | tail hab hbc ih =>
      rcases (bfsFinal_inv defs root).closed _ ih _ hbc with h1 | h1
      · exact h1
      · rw [bfsFinal_queue_empty defs root] at h1
        cases h1

theorem root_mem_reach (defs : JObj) (root : String) :
    root ∈ reachableList defs root :=
  reach_iff.mpr Relation.ReflTransGen.refl

theorem reach_nodup (defs : JObj) (root : String) :
    (reachableList defs root).Nodup :=
  (bfsFinal_inv defs root).nd

theorem reach_closed {defs : JObj} {root x y : String}
    (hx : x ∈ reachableList defs root) (hy : y ∈ adjOf defs x) :
    y ∈ reachableList defs root := by
  rcases (bfsFinal_inv defs root).closed x hx y hy with h1 | h1
  · exact h1
  · rw [bfsFinal_queue_empty defs root] at h1
    cases h1

theorem refs_subset_reach {defs : JObj} {root n : String} {b : Json}
    (hn : n ∈ reachableList defs root) (hl : defs.lookup n = some b) :
    ∀ t ∈ find_all_refs b, t ∈ reachableList defs root := by
  intro t ht
  exact reach_closed hn (adjOf_mem_iff.mpr ⟨b, hl, ht⟩)

/-! ### Lemmas about the document reconstruction -/

theorem buildDefs_lookup {reach : List String} (defs : JObj) (hnd : reach.Nodup) :
    ∀ n, (buildDefs reach defs).lookup n
      = if n ∈ reach then defs.lookup n else none := by
  induction reach with
  | nil => intro n; simp [buildDefs, JObj.lookup]
  | cons m rest ih =>
    intro n
    have hnd2 : rest.Nodup := hnd.of_cons
    rw [buildDefs]
    cases hl : defs.lookup m with
    | some b =>
      rw [JObj.lookup]
      by_cases hm : m = n
      · subst hm
        rw [if_pos rfl, if_pos (List.mem_cons_self _ _), hl]
      · rw [if_neg hm, ih hnd2 n]
        by_cases hn : n ∈ rest
        · rw [if_pos hn, if_pos (List.mem_cons_of_mem _ hn)]
        · rw [if_neg hn, if_neg (by
            intro hmem
            rcases List.mem_cons.mp hmem with h1 | h1
            · exact hm h1.symm
            · exact hn h1)]
    | none =>
      rw [ih hnd2 n]
      by_cases hm : m = n
      · subst hm
        have hn : m ∉ rest := (List.nodup_cons.mp hnd).1
        rw [if_neg hn, if_pos (List.mem_cons_self _ _), hl]
      · by_cases hn : n ∈ rest
        · rw [if_pos hn, if_pos (List.mem_cons_of_mem _ hn)]
        · rw [if_neg hn, if_neg (by
            intro hmem
            rcases List.mem_cons.mp hmem with h1 | h1
            · exact hm h1.symm
            · exact hn h1)]

theorem pruneDefs_lookup (keep : List String) (m : JObj) (n : String) :
    (pruneDefs keep m).lookup n = (m.lookup n).map (fun b => prune_refs b keep) := by
  induction m using jobjInd with
  | hnil => simp [pruneDefs, JObj.lookup]
  | hcons k v rest ih =>
    rw [pruneDefs, JObj.lookup, JObj.lookup]
    by_cases hk : k = n
    · rw [if_pos hk, if_pos hk, Option.map_some']
    · rw [if_neg hk, if_neg hk, ih]

theorem pruneDefs_keys (keep : List String) (m : JObj) :
    (pruneDefs keep m).keys = m.keys := by
  induction m using jobjInd with
  | hnil => rfl
  | hcons k v rest ih => rw [pruneDefs, JObj.keys, JObj.keys, ih]

theorem pruneDefs_length (keep : List String) (m : JObj) :
    (pruneDefs keep m).length = m.length := by
  induction m using jobjInd with
  | hnil => rfl
  | hcons k v rest ih => rw [pruneDefs, JObj.length, JObj.length, ih]

theorem replaceDefs_lookup_other {doc : JObj} {k : String} (x : Json)
    (hk : k ≠ "$defs") : (replaceDefs doc x).lookup k = doc.lookup k := by
  induction doc using jobjInd with
  | hnil => rfl
  | hcons k1 v1 rest ih =>
    rw [replaceDefs]
    by_cases h1 : k1 = "$defs"
    · rw [if_pos h1, JObj.lookup, JObj.lookup, ih]
      have : k1 ≠ k := by rw [h1]; exact fun h => hk h.symm
      rw [if_neg this, if_neg this]
    · rw [if_neg h1, JObj.lookup, JObj.lookup, ih]

theorem replaceDefs_lookup_hit {doc : JObj} (x : Json)
    (h : (doc.lookup "$defs").isSome) :
    (replaceDefs doc x).lookup "$defs" = some x := by
  induction doc using jobjInd with
  | hnil => simp [JObj.lookup] at h
  | hcons k1 v1 rest ih =>
    rw [JObj.lookup] at h
    rw [replaceDefs]
    by_cases h1 : k1 = "$defs"
    · rw [if_pos h1, JObj.lookup, if_pos h1]
    · rw [if_neg h1, JObj.lookup, if_neg h1]
      rw [if_neg h1] at h
      exact ih h

theorem replaceDefs_keys (doc : JObj) (x : Json) :
    (replaceDefs doc x).keys = doc.keys := by
  induction doc using jobjInd with
  | hnil => rfl
  | hcons k1 v1 rest ih =>
    rw [replaceDefs]
    by_cases h1 : k1 = "$defs"
    · rw [if_pos h1, JObj.keys, JObj.keys, ih]
    · rw [if_neg h1, JObj.keys, JObj.keys, ih]

theorem replaceDefs_twice (doc : JObj) (x y : Json) :
    replaceDefs (replaceDefs doc x) y = replaceDefs doc y := by
  induction doc using jobjInd with
  | hnil => rfl
  | hcons k1 v1 rest ih =>
    rw [replaceDefs]
    by_cases h1 : k1 = "$defs"
    · rw [if_pos h1, replaceDefs, if_pos h1, replaceDefs, if_pos h1, ih]
    · rw [if_neg h1, replaceDefs, if_neg h1, replaceDefs, if_neg h1, ih]

theorem restrictDefs_lookup (defs : JObj) (keep : List String) (n : String) :
    (restrictDefs defs keep).lookup n
      = if n ∈ keep then defs.lookup n else none := by
  induction defs using jobjInd with
  | hnil => simp [restrictDefs, JObj.lookup]
  | hcons k v rest ih =>
    rw [restrictDefs]
    by_cases hk : k ∈ keep
    · rw [if_pos hk, JObj.lookup]
      by_cases hkn : k = n
      · subst hkn
        rw [if_pos rfl, if_pos hk, JObj.lookup, if_pos rfl]
      · rw [if_neg hkn, ih, JObj.lookup, if_neg hkn]
    · rw [if_neg hk, ih]
      by_cases hn : n ∈ keep
      · rw [if_pos hn, if_pos hn, JObj.lookup]
        have hkn : k ≠ n := fun h => hk (h ▸ hn)
        rw [if_neg hkn]
      · rw [if_neg hn, if_neg hn]

theorem newDefs_lookup (defs : JObj) (root : String) (n : String) :
    (newDefsOf defs root).lookup n
      = if n ∈ reachableList defs root then defs.lookup n else none :=
  buildDefs_lookup defs (reach_nodup defs root) n

theorem prunedDefs_lookup_id {defs : JObj} {root : String}
    (hwf : wfObj defs = true) (n : String) :
    (prunedDefsOf defs root).lookup n = (newDefsOf defs root).lookup n := by
  rw [prunedDefsOf, pruneDefs_lookup]
  cases hl : (newDefsOf defs root).lookup n with
  | none => rfl
  | some b =>
    rw [Option.map_some']
    rw [newDefs_lookup] at hl
    by_cases hn : n ∈ reachableList defs root
    · rw [if_pos hn] at hl
      have hwfb : wfJson b = true := wfObj_pair hwf (JObj.pair_of_lookup hl)
      rw [prune_id b _ hwfb (refs_subset_reach hn hl)]
    · rw [if_neg hn] at hl
      cases hl

/-! ### A second run of the pruner reproduces its own output -/

theorem adj_idem_agree {defs : JObj} {root : String} (hwf : wfObj defs = true) :
    ∀ x ∈ reachableList defs root,
      adjOf (prunedDefsOf defs root) x = adjOf defs x := by
  intro x hx
  rw [adjOf, adjOf, prunedDefs_lookup_id hwf, newDefs_lookup, if_pos hx]

theorem bfsFinal_idem {defs : JObj} {root : String} (hwf : wfObj defs = true) :
    bfsFinal (prunedDefsOf defs root) root = bfsFinal defs root := by
  have hq : ∀ x ∈ (bfsInit root).queue, x ∈ reachableList defs root := by
    intro x hx
    have hx2 : x = root := List.mem_singleton.mp hx
    rw [hx2]
    exact root_mem_reach defs root
  have hclosed : ∀ x ∈ reachableList defs root,
      ∀ y ∈ adjOf (prunedDefsOf defs root) x, y ∈ reachableList defs root := by
    intro x hx y hy
    rw [adj_idem_agree hwf x hx] at hy
    exact reach_closed hx hy
  have hcong : ∀ f, bfsRun (adjOf (prunedDefsOf defs root)) f (bfsInit root)
      = bfsRun (adjOf defs) f (bfsInit root) :=
    fun f => bfsRun_congr (adj_idem_agree hwf) hclosed f (bfsInit root) hq
  have h2 : (bfsRun (adjOf defs) (bfsFuel (prunedDefsOf defs root) root) (bfsInit root)).queue
      = [] := by
    rw [← hcong]
    exact bfsFinal_queue_empty (prunedDefsOf defs root) root
  calc bfsFinal (prunedDefsOf defs root) root
      = bfsRun (adjOf defs) (bfsFuel (prunedDefsOf defs root) root) (bfsInit root) :=
        hcong _
    _ = bfsRun (adjOf defs) (bfsFuel defs root) (bfsInit root) :=
        bfsRun_eq_of_drained (adjOf defs) h2 (bfsFinal_queue_empty defs root)

theorem reach_idem {defs : JObj} {root : String} (hwf : wfObj defs = true) :
    reachableList (prunedDefsOf defs root) root = reachableList defs root := by
  rw [reachableList, reachableList, bfsFinal_idem hwf]

theorem buildDefs_congr {l : List String} {d1 d2 : JObj}
    (h : ∀ n ∈ l, d1.lookup n = d2.lookup n) : buildDefs l d1 = buildDefs l d2 := by
  induction l with
  | nil => rfl
  | cons n rest ih =>
    rw [buildDefs, buildDefs, h n (List.mem_cons_self _ _)]
    cases d2.lookup n with
    | none => exact ih (fun m hm => h m (List.mem_cons_of_mem _ hm))
    | some b => rw [ih (fun m hm => h m (List.mem_cons_of_mem _ hm))]

theorem newDefs_idem {defs : JObj} {root : String} (hwf : wfObj defs = true) :
    newDefsOf (prunedDefsOf defs root) root = newDefsOf defs root := by
  rw [newDefsOf, reach_idem hwf]
  exact buildDefs_congr (fun n hn => by
    rw [prunedDefs_lookup_id hwf, newDefs_lookup, if_pos hn])

theorem prunedDefs_idem {defs : JObj} {root : String} (hwf : wfObj defs = true) :
    prunedDefsOf (prunedDefsOf defs root) root = prunedDefsOf defs root := by
  rw [prunedDefsOf, reach_idem hwf, newDefs_idem hwf]
  rfl

/-! ### Unfolding `scanMain` and the keys of the output -/

theorem scanMain_eq_success {doc : JObj} {root : String} {defs : JObj}
    (hd : doc.lookup "$defs" = some (.obj defs)) :
    scanMain doc root
      = .success (replaceDefs doc (.obj (prunedDefsOf defs root)))
          (prunedDefsOf defs root).length (defs.lookup root).isNone := by
  simp only [scanMain, hd]

theorem scanMain_missing {doc : JObj} (root : String)
    (hd : doc.lookup "$defs" = none) :
    scanMain doc root
      = .missingDefs "Error: The schema does not have a top-level '$defs' key." := by
  simp only [scanMain, hd]

theorem pruned_keys_iff (defs : JObj) (root n : String) :
    n ∈ (prunedDefsOf defs root).keys
      ↔ n ∈ reachableList defs root ∧ n ∈ defs.keys := by
  rw [JObj.mem_keys_iff, prunedDefsOf, pruneDefs_lookup, newDefs_lookup,
    JObj.mem_keys_iff]
  by_cases hn : n ∈ reachableList defs root
  · rw [if_pos hn]
    cases hl : defs.lookup n with
    | none => simp [hn]
    | some b => simp [hn]
  · rw [if_neg hn]
    simp [hn]

theorem reach_missing_root {defs : JObj} {root : String}
    (hroot : defs.lookup root = none) : reachableList defs root = [root] := by
  have hadj : adjOf defs root = [] := by rw [adjOf, hroot]
  have hstep : bfsStep (adjOf defs) (bfsInit root) = ⟨[], [root], []⟩ := by
    show bfsStep (adjOf defs) ⟨[root], [], []⟩ = ⟨[], [root], []⟩
    rw [bfsStep_mark (List.not_mem_nil root), hadj]
    simp
  have h1 : bfsFinal defs root
      = bfsRun (adjOf defs)
          ((uList defs root).length * ((allTargets defs).length + 1))
          (bfsStep (adjOf defs) (bfsInit root)) := rfl
  rw [reachableList, h1, hstep, bfsRun_empty _ _ rfl]

theorem pruned_missing_root {defs : JObj} {root : String}
    (hroot : defs.lookup root = none) : prunedDefsOf defs root = .nil := by
  rw [prunedDefsOf, newDefsOf, reach_missing_root hroot]
  simp only [buildDefs, hroot]
  rfl

/-! ### The claims -/

/-- C1 (amended): in the pruner's output, every reference occurring
inside a retained definition targets a name in the reachable set (which
may contain names with no entry in the output's definitions mapping) or
has been rewritten to the sentinel; since referenced names are always
reachable, no rewrite occurs.  In the scenario with definitions
`{A: {ref: B}}` and root `A`, the reachable set is `{A, B}` and A's
reference to B is left unrewritten as a dangling pointer. -/
theorem c1_closure_amended (defs : JObj) (root n : String) (b : Json) (t : String)
    (hwf : wfObj defs = true) (hb : (prunedDefsOf defs root).lookup n = some b)
    (ht : t ∈ find_all_refs b) : t ∈ reachableList defs root := by
  rw [prunedDefs_lookup_id hwf, newDefs_lookup] at hb
  by_cases hn : n ∈ reachableList defs root
  · rw [if_pos hn] at hb
    exact refs_subset_reach hn hb t ht
  · rw [if_neg hn] at hb
    cases hb

/-- C1 counterexample: with definitions `{A: {$ref: #/$defs/B}}` (B
never defined) and root `A`, the reachable set is `{A, B}` (not `{A}`),
the retained definition `A` still contains the reference to `B`
unrewritten, and `B` is not a key of the output's definitions mapping —
so the reference neither targets an output key nor was rewritten to the
sentinel. -/
theorem c1_counterexample :
    reachableList exDanglingDefs "A" = ["A", "B"]
    ∧ (prunedDefsOf exDanglingDefs "A").lookup "A"
        = some (.obj (.cons "$ref" (.str "#/$defs/B") .nil))
    ∧ "B" ∈ find_all_refs (Json.obj (.cons "$ref" (.str "#/$defs/B") .nil))
    ∧ "B" ∉ (prunedDefsOf exDanglingDefs "A").keys
    ∧ Json.str "#/$defs/B" ≠ Json.str "#/$defs/REMOVED_REFERENCE" := by decide

/-- Witness for C1: at the concrete scenario input the hypotheses hold
and the theorem places the dangling target in the reachable set. -/
theorem c1_witness :
    (wfObj exDanglingDefs = true
      ∧ (prunedDefsOf exDanglingDefs "A").lookup "A"
          = some (.obj (.cons "$ref" (.str "#/$defs/B") .nil))
      ∧ "B" ∈ find_all_refs (Json.obj (.cons "$ref" (.str "#/$defs/B") .nil)))
    ∧ "B" ∈ reachableList exDanglingDefs "A" :=
  ⟨⟨by decide, by decide, by decide⟩,
    c1_closure_amended exDanglingDefs "A" "A"
      (.obj (.cons "$ref" (.str "#/$defs/B") .nil)) "B"
      (by decide) (by decide) (by decide)⟩

/-- C2: a name is a key of the output definitions mapping iff there is
a forward path of zero or more edges from the root to it in the
adjacency relation built from the original document and it is a key of
the original definitions mapping; consequently a root that has a
definition is always kept. -/
theorem c2_reachability (defs : JObj) (root n : String) :
    (n ∈ (prunedDefsOf defs root).keys
      ↔ Reaches (adjOf defs) root n ∧ n ∈ defs.keys)
    ∧ (root ∈ defs.keys → root ∈ (prunedDefsOf defs root).keys) := by
  constructor
  · rw [pruned_keys_iff, reach_iff]
  · intro hr
    rw [pruned_keys_iff]
    exact ⟨root_mem_reach defs root, hr⟩

/-- Witness for C2: in scenario 1 the root `A` has a definition and is
kept in the output. -/
theorem c2_witness :
    "A" ∈ exChainDefs.keys ∧ "A" ∈ (prunedDefsOf exChainDefs "A").keys :=
  ⟨by decide, (c2_reachability exChainDefs "A" "A").2 (by decide)⟩

/-- C3: on well-formed input the composed pipeline never writes the
sentinel: the pruning pass leaves every retained body unchanged, so the
output definitions mapping coincides (as a mapping) with the
restriction of the original definitions mapping to the reachable
set. -/
theorem c3_restriction (defs : JObj) (root : String) (hwf : wfObj defs = true) :
    (∀ n, (prunedDefsOf defs root).lookup n
        = (restrictDefs defs (reachableList defs root)).lookup n)
    ∧ (∀ n b, (newDefsOf defs root).lookup n = some b →
        prune_refs b (reachableList defs root) = b) := by
  constructor
  · intro n
    rw [prunedDefs_lookup_id hwf, newDefs_lookup, restrictDefs_lookup]
  · intro n b hb
    rw [newDefs_lookup] at hb
    by_cases hn : n ∈ reachableList defs root
    · rw [if_pos hn] at hb
      exact prune_id b _ (wfObj_pair hwf (JObj.pair_of_lookup hb))
        (refs_subset_reach hn hb)
    · rw [if_neg hn] at hb
      cases hb

/-- Witness for C3: at scenario 1 the output agrees with the
restriction of the original mapping on a kept key and a dropped key. -/
theorem c3_witness :
    wfObj exChainDefs = true
    ∧ (prunedDefsOf exChainDefs "A").lookup "D"
        = (restrictDefs exChainDefs (reachableList exChainDefs "A")).lookup "D"
    ∧ (prunedDefsOf exChainDefs "A").lookup "A"
        = (restrictDefs exChainDefs (reachableList exChainDefs "A")).lookup "A" :=
  ⟨by decide, (c3_restriction exChainDefs "A" (by decide)).1 "D",
    (c3_restriction exChainDefs "A" (by decide)).1 "A"⟩

/-- C4 (amended): running the pruner a second time on its own output
with the same root yields the identical result (same document, count
and warning), and the reachable set computed from the pruned document
equals the first run's reachable set — which may properly contain the
pruned definitions' key set (never-defined referenced names, or a root
with no definition), rather than equalling it. -/
theorem c4_idempotent (doc : JObj) (root : String) (defs : JObj) (out : JObj)
    (cnt : Nat) (w : Bool) (hd : doc.lookup "$defs" = some (.obj defs))
    (hwf : wfObj defs = true) (hs : scanMain doc root = .success out cnt w) :
    scanMain out root = .success out cnt w
    ∧ reachableList (prunedDefsOf defs root) root = reachableList defs root := by
  rw [scanMain_eq_success hd] at hs
  injection hs with h1 h2 h3
  subst h1
  subst h2
  subst h3
  constructor
  · have hout : (replaceDefs doc (Json.obj (prunedDefsOf defs root))).lookup "$defs"
        = some (Json.obj (prunedDefsOf defs root)) :=
      replaceDefs_lookup_hit _ (by rw [hd]; rfl)
    rw [scanMain_eq_success hout, prunedDefs_idem hwf, replaceDefs_twice,
      prunedDefs_lookup_id hwf, newDefs_lookup,
      if_pos (root_mem_reach defs root)]
  · exact reach_idem hwf

/-- C4 counterexample: on the pruned output of the dangling-reference
scenario, the reachable set recomputed from the pruned document is
`{A, B}` while the pruned definitions mapping has key set `{A}` — the
two are not equal, contradicting the claim's parenthetical. -/
theorem c4_counterexample :
    reachableList (prunedDefsOf exDanglingDefs "A") "A" = ["A", "B"]
    ∧ (prunedDefsOf exDanglingDefs "A").keys = ["A"]
    ∧ reachableList (prunedDefsOf exDanglingDefs "A") "A"
        ≠ (prunedDefsOf exDanglingDefs "A").keys := by decide

/-- Witness for C4: a second run on the concrete scenario-1 output
returns that output unchanged. -/
theorem c4_witness :
    (exChainDoc.lookup "$defs" = some (.obj exChainDefs)
      ∧ wfObj exChainDefs = true
      ∧ scanMain exChainDoc "A"
          = .success (replaceDefs exChainDoc (.obj (prunedDefsOf exChainDefs "A")))
              (prunedDefsOf exChainDefs "A").length false)
    ∧ scanMain (replaceDefs exChainDoc (.obj (prunedDefsOf exChainDefs "A"))) "A"
        = .success (replaceDefs exChainDoc (.obj (prunedDefsOf exChainDefs "A")))
            (prunedDefsOf exChainDefs "A").length false :=
  ⟨⟨by decide, by decide, by decide⟩,
    (c4_idempotent exChainDoc "A" exChainDefs
      (replaceDefs exChainDoc (.obj (prunedDefsOf exChainDefs "A")))
      (prunedDefsOf exChainDefs "A").length false
      (by decide) (by decide) (by decide)).1⟩

/-- C5 (amended): the search marks each name visited at most once (the
visited list has no duplicates) and terminates with an empty frontier
within the allotted fuel; a name can however be enqueued more than
once — once per incoming edge examined before it is marked — because
the membership test guards against visited names only, not against
names already sitting in the queue. -/
theorem c5_termination_amended (defs : JObj) (root : String) :
    (reachableList defs root).Nodup ∧ (bfsFinal defs root).queue = [] :=
  ⟨reach_nodup defs root, bfsFinal_queue_empty defs root⟩

/-- C5 counterexample: in the diamond `R → {A, B}`, `A → C`, `B → C`,
the name `C` is appended to the queue twice (once while visiting `A`
and once while visiting `B`), so the search does not enqueue each name
at most once. -/
theorem c5_counterexample :
    (bfsFinal exDiamondDefs "R").log.count "C" = 2
    ∧ ¬ (bfsFinal exDiamondDefs "R").log.count "C" ≤ 1 := by decide

/-- C6: a reference inside a retained definition to a name that was
never a key of the original definitions mapping is left unrewritten by
the pruner — it survives into the output as a dangling pointer whose
target is not an output key — and no reference acquires a name it did
not already have (in particular no sentinel is introduced), so only
references whose target existed but was pruned could ever be
rewritten. -/
theorem c6_dangling (defs : JObj) (root n : String) (b : Json) (t : String)
    (hwf : wfObj defs = true) (hb : (newDefsOf defs root).lookup n = some b) :
    (t ∈ find_all_refs b → t ∉ defs.keys →
      t ∈ find_all_refs (prune_refs b (reachableList defs root))
        ∧ t ∉ (prunedDefsOf defs root).keys)
    ∧ (t ∈ find_all_refs (prune_refs b (reachableList defs root)) →
        t ∈ find_all_refs b) := by
  have hn_hl : n ∈ reachableList defs root ∧ defs.lookup n = some b := by
    rw [newDefs_lookup] at hb
    by_cases hn : n ∈ reachableList defs root
    · rw [if_pos hn] at hb
      exact ⟨hn, hb⟩
    · rw [if_neg hn] at hb
      cases hb
  obtain ⟨hn, hl⟩ := hn_hl
  have hid : prune_refs b (reachableList defs root) = b :=
    prune_id b _ (wfObj_pair hwf (JObj.pair_of_lookup hl))
      (refs_subset_reach hn hl)
  constructor
  · intro ht htk
    refine ⟨by rw [hid]; exact ht, ?_⟩
    rw [pruned_keys_iff]
    rintro ⟨_, h2⟩
    exact htk h2
  · intro ht
    rw [hid] at ht
    exact ht

/-- Witness for C6: in the dangling scenario the reference to the
never-defined `B` survives pruning and `B` is not an output key. -/
theorem c6_witness :
    (wfObj exDanglingDefs = true
      ∧ (newDefsOf exDanglingDefs "A").lookup "A"
          = some (.obj (.cons "$ref" (.str "#/$defs/B") .nil))
      ∧ "B" ∈ find_all_refs (Json.obj (.cons "$ref" (.str "#/$defs/B") .nil))
      ∧ "B" ∉ exDanglingDefs.keys)
    ∧ "B" ∈ find_all_refs (prune_refs
          (Json.obj (.cons "$ref" (.str "#/$defs/B") .nil))
          (reachableList exDanglingDefs "A"))
    ∧ "B" ∉ (prunedDefsOf exDanglingDefs "A").keys := by
  refine ⟨⟨by decide, by decide, by decide, by decide⟩, ?_, ?_⟩
  · exact ((c6_dangling exDanglingDefs "A" "A"
      (.obj (.cons "$ref" (.str "#/$defs/B") .nil)) "B"
      (by decide) (by decide)).1 (by decide) (by decide)).1
  · exact ((c6_dangling exDanglingDefs "A" "A"
      (.obj (.cons "$ref" (.str "#/$defs/B") .nil)) "B"
      (by decide) (by decide)).1 (by decide) (by decide)).2

/-- C7: when the parsed document has no top-level `$defs` key the run
reports the diagnostic and terminates with status 1 without writing any
output; when `$defs` is present (as a mapping) the run terminates with
status 0, writes the minimized document, and reports the number of
retained definitions. -/
theorem c7_exit_codes (doc : JObj) (root : String) :
    (doc.lookup "$defs" = none →
      scanMain doc root
          = .missingDefs "Error: The schema does not have a top-level '$defs' key."
        ∧ exitStatus (scanMain doc root) = 1
        ∧ writtenOutput (scanMain doc root) = none)
    ∧ (∀ defs, doc.lookup "$defs" = some (.obj defs) →
        exitStatus (scanMain doc root) = 0
        ∧ writtenOutput (scanMain doc root)
            = some (replaceDefs doc (.obj (prunedDefsOf defs root)))
        ∧ scanMain doc root
            = .success (replaceDefs doc (.obj (prunedDefsOf defs root)))
                (prunedDefsOf defs root).length (defs.lookup root).isNone) := by
  constructor
  · intro hd
    rw [scanMain_missing root hd]
    exact ⟨rfl, rfl, rfl⟩
  · intro defs hd
    rw [scanMain_eq_success hd]
    exact ⟨rfl, rfl, rfl⟩

/-- Witness for C7: the empty document has no `$defs` and exits with
status 1 and no output; the chain document succeeds with status 0. -/
theorem c7_witness :
    (JObj.nil.lookup "$defs" = none
      ∧ exitStatus (scanMain JObj.nil "A") = 1
      ∧ writtenOutput (scanMain JObj.nil "A") = none)
    ∧ (exChainDoc.lookup "$defs" = some (.obj exChainDefs)
      ∧ exitStatus (scanMain exChainDoc "A") = 0) := by
  constructor
  · exact ⟨by decide, ((c7_exit_codes JObj.nil "A").1 (by decide)).2.1,
      ((c7_exit_codes JObj.nil "A").1 (by decide)).2.2⟩
  · exact ⟨by decide, ((c7_exit_codes exChainDoc "A").2 exChainDefs (by decide)).1⟩

/-- C8: when the root has no entry in the definitions mapping, the run
still succeeds with the warning flag set, the search records exactly
the root as reachable with no expansion, and the output definitions
mapping is empty. -/
theorem c8_missing_root (doc : JObj) (root : String) (defs : JObj)
    (hd : doc.lookup "$defs" = some (.obj defs))
    (hroot : defs.lookup root = none) :
    reachableList defs root = [root]
    ∧ prunedDefsOf defs root = .nil
    ∧ scanMain doc root = .success (replaceDefs doc (.obj .nil)) 0 true := by
  refine ⟨reach_missing_root hroot, pruned_missing_root hroot, ?_⟩
  rw [scanMain_eq_success hd, pruned_missing_root hroot, hroot]
  rfl

/-- Witness for C8: running the chain document with the absent root
`Z` succeeds with an empty definitions mapping. -/
theorem c8_witness :
    (exChainDoc.lookup "$defs" = some (.obj exChainDefs)
      ∧ exChainDefs.lookup "Z" = none)
    ∧ reachableList exChainDefs "Z" = ["Z"]
    ∧ scanMain exChainDoc "Z"
        = .success (replaceDefs exChainDoc (.obj .nil)) 0 true := by
  refine ⟨⟨by decide, by decide⟩, ?_, ?_⟩
  · exact (c8_missing_root exChainDoc "Z" exChainDefs (by decide) (by decide)).1
  · exact (c8_missing_root exChainDoc "Z" exChainDefs (by decide) (by decide)).2.2

/-- C9: the successful output preserves the key list of the input
document, and every top-level entry other than `$defs` is looked up
unchanged; the transformation is pure — it rebuilds new containers and
never mutates the input value. -/
theorem c9_passthrough (doc : JObj) (root : String) (out : JObj) (cnt : Nat)
    (w : Bool) (hs : scanMain doc root = .success out cnt w) :
    out.keys = doc.keys ∧ ∀ k, k ≠ "$defs" → out.lookup k = doc.lookup k := by
  cases hd : doc.lookup "$defs" with
  | none =>
    rw [scanMain_missing root hd] at hs
    cases hs
  | some v =>
    cases v with
    | obj defs =>
      rw [scanMain_eq_success hd] at hs
      injection hs with h1 h2 h3
      subst h1
      exact ⟨replaceDefs_keys doc _, fun k hk => replaceDefs_lookup_other _ hk⟩
    | str s => simp only [scanMain, hd] at hs; cases hs
    | num m => simp only [scanMain, hd] at hs; cases hs
    | bool b => simp only [scanMain, hd] at hs; cases hs
    | null => simp only [scanMain, hd] at hs; cases hs
    | arr xs => simp only [scanMain, hd] at hs; cases hs

/-- Witness for C9: the sibling key `title` of the chain document is
unchanged in the output. -/
theorem c9_witness :
    scanMain exChainDoc "A"
        = .success (replaceDefs exChainDoc (.obj (prunedDefsOf exChainDefs "A")))
            (prunedDefsOf exChainDefs "A").length false
    ∧ (replaceDefs exChainDoc (.obj (prunedDefsOf exChainDefs "A"))).keys
        = exChainDoc.keys
    ∧ (replaceDefs exChainDoc (.obj (prunedDefsOf exChainDefs "A"))).lookup "title"
        = exChainDoc.lookup "title" := by
  refine ⟨by decide, ?_, ?_⟩
  · exact (c9_passthrough exChainDoc "A"
      (replaceDefs exChainDoc (.obj (prunedDefsOf exChainDefs "A")))
      (prunedDefsOf exChainDefs "A").length false (by decide)).1
  · exact (c9_passthrough exChainDoc "A"
      (replaceDefs exChainDoc (.obj (prunedDefsOf exChainDefs "A")))
      (prunedDefsOf exChainDefs "A").length false (by decide)).2 "title" (by decide)

/-- C10 (amended): the extractor returns exactly the nonempty names
carried by local-pointer reference strings at any nesting depth —
membership in `find_all_refs` holds iff the name is nonempty and the
spec-level relation `SpecRef` (reference key with the marker prefix,
recursing into every object value and array element) holds; the empty
trailing name of the bare marker string is dropped by the `if
def_name:` truthiness guard. -/
theorem c10_extractor (v : Json) (n : String) :
    n ∈ find_all_refs v ↔ (n ≠ "" ∧ SpecRef n v) :=
  refs_spec v n

/-- C10 counterexample: the object `{"$ref": "#/$defs/"}` carries the
reference key with a string matching the local-pointer prefix and
trailing name `""`, so the spec-level relation holds, yet the extractor
does not return that name — the extractor does not return exactly the
set of names appearing in local-pointer reference strings. -/
theorem c10_counterexample :
    ¬ (("" ∈ find_all_refs (Json.obj (.cons "$ref" (.str "#/$defs/") .nil)))
        ↔ SpecRef "" (Json.obj (.cons "$ref" (.str "#/$defs/") .nil))) := by
  intro h
  have hs : SpecRef "" (Json.obj (.cons "$ref" (.str "#/$defs/") .nil)) :=
    SpecRef.here _ "#/$defs/" "" (by decide) (by decide)
  exact absurd (h.mpr hs) (by decide)

end LinkmlScan
